import Mathlib

/-!
Shallow embedding of the resilience layer of the `pyidevice` repository
(`pyidevice/stability.py` and `pyidevice/batch.py`): the retry manager,
the circuit breaker, the connection pool, the health checker and the
batch executor, together with theorems settling the specification
claims about them.

Numeric quantities that are Python floats (delays, timestamps, rational
health fractions) are modelled as exact rationals `ℚ`; Python `time.time()`
values are passed in explicitly as parameters.  Caller-supplied operations
are modelled by their observable outcome (returned value, raised matching
exception, raised non-matching exception); thread scheduling is abstracted
into explicit parameters (completion order, whether the aggregate deadline
elapsed) as noted at each definition.
-/

namespace PyIDevice

/-! ## RetryManager (`stability.py`, `RetryStrategy`, `RetryConfig`,
`RetryManager.execute`, `RetryManager._calculate_delay`) -/

/-- `RetryStrategy` enum from `stability.py`. -/
inductive RetryStrategy where
  | fixed
  | exponential
  | linear
  | custom
deriving DecidableEq, Repr

/-- `RetryConfig` dataclass from `stability.py`.  The tuple of retryable
exception classes is not carried here; instead each raised exception in an
operation's outcome carries a flag saying whether it matches
`config.exceptions` (Python's `except self.config.exceptions`). -/
structure RetryConfig where
  max_retries : ℕ := 3
  base_delay : ℚ := 1
  max_delay : ℚ := 60
  backoff_factor : ℚ := 2
  strategy : RetryStrategy := .exponential
  jitter : Bool := true
deriving DecidableEq, Repr

/-- `RetryManager._calculate_delay(attempt)`.  `r` is the value drawn by
`random.uniform(0.1, 0.3)` when jitter is enabled (unused otherwise). -/
def calculate_delay (cfg : RetryConfig) (attempt : ℕ) (r : ℚ) : ℚ :=
  let d : ℚ :=
    match cfg.strategy with
    | .fixed => cfg.base_delay
    | .exponential => cfg.base_delay * cfg.backoff_factor ^ attempt
    | .linear => cfg.base_delay * (attempt + 1)
    | .custom => cfg.base_delay
  let d := min d cfg.max_delay
  if cfg.jitter then d + r * d else d

/-- Observable outcome of one invocation of the wrapped function:
it either returns a value, or raises an exception; `matching` records
whether the exception is an instance of `config.exceptions`. -/
inductive AttemptOutcome (E A : Type) where
  | ok (a : A)
  | raises (e : E) (matching : Bool)
deriving DecidableEq, Repr

/-- How `RetryManager.execute` terminates: the wrapped function's value,
the re-raise of the last matching exception after exhausting all attempts,
or the immediate propagation of a non-matching exception. -/
inductive RetryResult (E A : Type) where
  | success (a : A)
  | raisedLast (e : E)
  | propagated (e : E)
deriving DecidableEq, Repr

/-- Observable trace of one `RetryManager.execute` call: its result, the
number of invocations of the wrapped function, the per-function
failure-statistic increments, the retry-counter increments, and the list of
delays passed to `time.sleep`. -/
structure RetryTrace (E A : Type) where
  result : RetryResult E A
  invocations : ℕ
  failures : ℕ
  retries : ℕ
  sleeps : List ℚ
deriving DecidableEq, Repr

/-- One loop iteration of `RetryManager.execute` and the recursion over the
remaining iterations of `for attempt in range(config.max_retries + 1)`.
`ops i` is the outcome of the `i`-th invocation of `func` and `rand i` the
jitter draw available at attempt `i`.  The loop body either returns
(success), sleeps and continues (matching failure with
`attempt < max_retries`), breaks and re-raises the last exception (matching
failure on the final attempt), or lets a non-matching exception propagate.
`remaining = max_retries - attempt` counts how many more times the
`attempt < max_retries` test can still succeed, so `remaining = 0` is
exactly the final iteration, in which a matching failure takes the
break-and-re-raise branch. -/
def executeFrom (cfg : RetryConfig) (ops : ℕ → AttemptOutcome E A)
    (rand : ℕ → ℚ) : (attempt remaining : ℕ) → RetryTrace E A
  | attempt, 0 =>
    match ops attempt with
    | .ok a => ⟨.success a, 1, 0, 0, []⟩
    | .raises e true => ⟨.raisedLast e, 1, 1, 0, []⟩
    | .raises e false => ⟨.propagated e, 1, 0, 0, []⟩
  | attempt, remaining + 1 =>
    match ops attempt with
    | .ok a => ⟨.success a, 1, 0, 0, []⟩
    | .raises _ true =>
      let delay := calculate_delay cfg attempt (rand attempt)
      let rest := executeFrom cfg ops rand (attempt + 1) remaining
      ⟨rest.result, rest.invocations + 1, rest.failures + 1,
        rest.retries + 1, delay :: rest.sleeps⟩
    | .raises e false => ⟨.propagated e, 1, 0, 0, []⟩

/-- `RetryManager.execute(func, ...)`: the loop
`for attempt in range(config.max_retries + 1)` started at attempt 0 with
all `config.max_retries` possible retries ahead of it. -/
def execute (cfg : RetryConfig) (ops : ℕ → AttemptOutcome E A)
    (rand : ℕ → ℚ) : RetryTrace E A :=
  executeFrom cfg ops rand 0 cfg.max_retries

/-! ## CircuitBreaker (`stability.py`, `CircuitState`, `CircuitBreaker.call`,
`CircuitBreaker._on_success`, `CircuitBreaker._on_failure`) -/

/-- `CircuitState` enum from `stability.py` (`open` is a Lean keyword, hence
`open_`). -/
inductive CircuitState where
  | closed
  | open_
  | halfOpen
deriving DecidableEq, Repr

/-- The constructor arguments of `CircuitBreaker.__init__` that govern the
state machine.  As with retry, `expected_exception` is not carried: each
failure event says whether the raised exception matches it. -/
structure CBConfig where
  failure_threshold : ℕ := 5
  recovery_timeout : ℚ := 60
deriving DecidableEq, Repr

/-- The mutable fields of a `CircuitBreaker` instance. -/
structure CBState where
  state : CircuitState := .closed
  failure_count : ℕ := 0
  last_failure_time : ℚ := 0
  success_count : ℕ := 0
deriving DecidableEq, Repr

/-- Fresh breaker as built by `CircuitBreaker.__init__`. -/
def cbInit : CBState := {}

/-- Observable behaviour of the wrapped function during one admitted call:
it returns, raises an exception matching `expected_exception`, or raises a
non-matching exception (which `except self.expected_exception` lets
propagate without touching the breaker). -/
inductive CBEvent where
  | success
  | matchingFailure
  | otherFailure
deriving DecidableEq, Repr

/-- What `CircuitBreaker.call` does from the caller's point of view. -/
inductive CBCallResult where
  | rejectedOpen
  | returned
  | raised
deriving DecidableEq, Repr

/-- `CircuitBreaker._on_success`. -/
def cbOnSuccess (s : CBState) : CBState :=
  if s.state = .halfOpen then
    let sc := s.success_count + 1
    if 2 ≤ sc then
      { s with state := .closed, failure_count := 0, success_count := sc }
    else
      { s with success_count := sc }
  else
    { s with failure_count := 0 }

/-- `CircuitBreaker._on_failure`; `now` is the `time.time()` value read
inside it. -/
def cbOnFailure (cfg : CBConfig) (s : CBState) (now : ℚ) : CBState :=
  let s := { s with failure_count := s.failure_count + 1,
                    last_failure_time := now }
  if cfg.failure_threshold ≤ s.failure_count then
    { s with state := .open_ }
  else
    s

/-- The `try: func(...)` part of `CircuitBreaker.call`: runs the wrapped
function and dispatches to `_on_success` / `_on_failure`. -/
def cbExec (cfg : CBConfig) (s : CBState) (now : ℚ) (ev : CBEvent) :
    CBState × CBCallResult :=
  match ev with
  | .success => (cbOnSuccess s, .returned)
  | .matchingFailure => (cbOnFailure cfg s now, .raised)
  | .otherFailure => (s, .raised)

/-- `CircuitBreaker.call(func, ...)`.  `now` is the current time; the open
branch compares `time.time() - self._last_failure_time` with
`self.recovery_timeout` and either moves to half-open (resetting
`_success_count`) before executing, or rejects without invoking `func`. -/
def cbCall (cfg : CBConfig) (s : CBState) (now : ℚ) (ev : CBEvent) :
    CBState × CBCallResult :=
  if s.state = .open_ then
    if cfg.recovery_timeout < now - s.last_failure_time then
      cbExec cfg { s with state := .halfOpen, success_count := 0 } now ev
    else
      (s, .rejectedOpen)
  else
    cbExec cfg s now ev

/-- States a `CircuitBreaker` can be in after any sequence of `call`s
starting from a fresh breaker. -/
inductive CBReachable (cfg : CBConfig) : CBState → Prop where
  | init : CBReachable cfg cbInit
  | step {s : CBState} (now : ℚ) (ev : CBEvent) :
      CBReachable cfg s → CBReachable cfg (cbCall cfg s now ev).1

/-- Iterated matching failures, all observed at time `now`: the trace of a
fresh breaker fed `n` consecutive matching failures. -/
def cbFailTrace (cfg : CBConfig) (now : ℚ) : ℕ → CBState
  | 0 => cbInit
  | n + 1 => (cbCall cfg (cbFailTrace cfg now n) now .matchingFailure).1

/-! ## ConnectionPool (`stability.py`, `ConnectionInfo`,
`ConnectionPool._acquire_connection`, `ConnectionPool._release_connection`,
`ConnectionPool._cleanup_expired_connections`) -/

/-- `ConnectionInfo` dataclass (the free-form `metadata` dict carries no
behaviour touched by the pool and is not modelled). -/
structure ConnectionInfo where
  id : String
  created_at : ℚ
  last_used : ℚ
  is_active : Bool := true
deriving DecidableEq, Repr

/-- A `ConnectionPool` instance: its configuration and its `_connections`
dict, modelled as the insertion-ordered list of records (Python dicts
iterate in insertion order, which `_acquire_connection`'s reuse scan relies
on).  Ids are unique in an actual dict but nothing here needs that. -/
structure ConnectionPool where
  max_connections : ℕ := 10
  connection_timeout : ℚ := 30
  idle_timeout : ℚ := 300
  cleanup_interval : ℚ := 60
  connections : List ConnectionInfo := []
deriving DecidableEq, Repr

/-- Error raised by `_acquire_connection` when the pool is full
(`RuntimeError("连接池已满...")`). -/
inductive PoolError where
  | exhausted
deriving DecidableEq, Repr

/-- Helper for the reuse branch of `_acquire_connection`: walk the records
in order, refresh `last_used` on the first active one and return its id. -/
def reuseFirstActive (now : ℚ) :
    List ConnectionInfo → Option (String × List ConnectionInfo)
  | [] => none
  | c :: cs =>
    if c.is_active then
      some (c.id, { c with last_used := now } :: cs)
    else
      match reuseFirstActive now cs with
      | some (cid, cs2) => some (cid, c :: cs2)
      | none => none

/-- `ConnectionPool._acquire_connection`.  `now` stands for the
`time.time()` reads and `newId` for the generated
`f"conn_{int(time.time() * 1000)}_{id(self)}"` string. -/
def acquire_connection (pool : ConnectionPool) (now : ℚ) (newId : String) :
    Except PoolError (String × ConnectionPool) :=
  match reuseFirstActive now pool.connections with
  | some (cid, conns) => .ok (cid, { pool with connections := conns })
  | none =>
    if pool.connections.length < pool.max_connections then
      .ok (newId, { pool with connections :=
        pool.connections ++ [⟨newId, now, now, true⟩] })
    else
      .error .exhausted

/-- `ConnectionPool._release_connection(conn_id)`: refresh `last_used` of
the record with that id, if present. -/
def release_connection (pool : ConnectionPool) (now : ℚ) (connId : String) :
    ConnectionPool :=
  { pool with connections := pool.connections.map fun c =>
      if c.id = connId then { c with last_used := now } else c }

/-- `ConnectionPool._cleanup_expired_connections`: evict every record whose
idle time exceeds `idle_timeout`. -/
def cleanup_expired_connections (pool : ConnectionPool) (now : ℚ) :
    ConnectionPool :=
  { pool with connections := pool.connections.filter fun c =>
      ¬ pool.idle_timeout < now - c.last_used }

/-- Pools reachable from an empty pool by acquire and release alone
(no cleanup evictions in between). -/
inductive AcqRelReachable (maxConn : ℕ) : ConnectionPool → Prop where
  | init (cfg : ConnectionPool) :
      cfg.connections = [] → cfg.max_connections = maxConn →
      AcqRelReachable maxConn cfg
  | acquire {p : ConnectionPool} (now : ℚ) (newId cid : String)
      (p2 : ConnectionPool) : AcqRelReachable maxConn p →
      acquire_connection p now newId = .ok (cid, p2) →
      AcqRelReachable maxConn p2
  | release {p : ConnectionPool} (now : ℚ) (connId : String) :
      AcqRelReachable maxConn p →
      AcqRelReachable maxConn (release_connection p now connId)

/-! ## HealthChecker (`stability.py`, `HealthStatus`,
`HealthChecker.check_health`) -/

/-- `HealthStatus` enum from `stability.py`. -/
inductive HealthStatus where
  | healthy
  | unhealthy
  | degraded
  | unknown
deriving DecidableEq, Repr

/-- A `HealthChecker` instance: registered check names (a dict keyed by
name; the per-check `HealthCheck` config only feeds `_execute_check`, whose
boolean verdict is supplied per run), the status history, the per-check
consecutive-failure and recovery counters, and the current status. -/
structure HealthChecker where
  checks : List String := []
  status_history : List (ℚ × String × HealthStatus) := []
  failure_counts : String → ℕ := fun _ => 0
  recovery_counts : String → ℕ := fun _ => 0
  current_status : HealthStatus := .unknown

/-- The history-trim step at the end of `check_health`:
`self._status_history = self._status_history[-500:]` once the length
exceeds 1000 (`l[-500:]` keeps the most recent 500 entries, i.e. drops
`len - 500`). -/
def trimHistory (l : List (ℚ × String × HealthStatus)) :
    List (ℚ × String × HealthStatus) :=
  if 1000 < l.length then l.drop (l.length - 500) else l

/-- `HealthChecker.check_health`.  `probe name` is the boolean verdict of
`_execute_check` for the check of that name in this run (`False` covers
both a falsy return and a raised exception, which the method catches and
counts as a failure); `now` is the `time.time()` read for the history
entry.  Returns the status together with the updated checker. -/
def check_health (hc : HealthChecker) (now : ℚ) (probe : String → Bool) :
    HealthStatus × HealthChecker :=
  if hc.checks = [] then
    (.unknown, { hc with current_status := .unknown })
  else
    let healthy_checks : ℕ := hc.checks.countP probe
    let total_checks : ℕ := hc.checks.length
    let fc : String → ℕ := fun n =>
      if n ∈ hc.checks then
        if probe n then 0 else hc.failure_counts n + 1
      else hc.failure_counts n
    let rc : String → ℕ := fun n =>
      if n ∈ hc.checks then
        if probe n then hc.recovery_counts n + 1 else 0
      else hc.recovery_counts n
    let status : HealthStatus :=
      if (9 : ℚ) / 10 ≤ (healthy_checks : ℚ) / (total_checks : ℚ) then
        .healthy
      else if (1 : ℚ) / 2 ≤ (healthy_checks : ℚ) / (total_checks : ℚ) then
        .degraded
      else
        .unhealthy
    let hist := trimHistory (hc.status_history ++ [(now, "overall", status)])
    (status, { hc with status_history := hist, failure_counts := fc,
                       recovery_counts := rc, current_status := status })

/-! ## BatchOperator (`batch.py`, `BatchResult`,
`BatchOperator.execute_batch`, `BatchOperator._execute_single`) -/

/-- `BatchResult` dataclass from `batch.py`.  `result` holds the value the
caller-supplied operation returned (a Python `Any`; `None` on the failure
path), modelled as an `Option`. -/
structure BatchResult (A : Type) where
  udid : String
  success : Bool
  result : Option A
  error : Option String := none
  duration : ℚ := 0
deriving DecidableEq, Repr

/-- `BatchOperator._execute_single(udid, operation)`.  `outcome` is the
observable behaviour of `Device(udid)` construction followed by
`operation(device)`: either the returned value or the string rendering of
the raised exception (`str(e)`); `duration` is the measured wall-clock
time.  The surrounding `try/except Exception` makes this total: it always
hands back a `BatchResult`, never an exception. -/
def execute_single (udid : String) (outcome : Except String A)
    (duration : ℚ) : BatchResult A :=
  match outcome with
  | .ok a => { udid := udid, success := true, result := some a,
               duration := duration }
  | .error e => { udid := udid, success := false, result := none,
                  error := some e, duration := duration }

/-- The exception `as_completed(future_to_udid, timeout=self.timeout)`
raises when the aggregate deadline elapses before every future has
completed (`concurrent.futures.TimeoutError`); nothing in `execute_batch`
catches it, so it escapes the whole call. -/
inductive BatchError where
  | aggregateTimeout
deriving DecidableEq, Repr

/-- `BatchOperator.execute_batch(udids, operation, ...)`.  The thread
pool's scheduling is abstracted into two parameters: `completionOrder`,
the order in which `as_completed` yields the workers' futures (a
permutation of `udids` whenever every worker finishes in time), and
`timedOut`, true iff the aggregate `timeout` elapses while futures are
still pending — in which case `as_completed` raises and, the loop body's
`try/except` guarding only `future.result()`, the exception propagates out
of `execute_batch`.  Otherwise the collected list holds, in completion
order, exactly the `BatchResult` each worker's `_execute_single` built. -/
def execute_batch (outcome : String → Except String A)
    (durations : String → ℚ) (completionOrder : List String)
    (timedOut : Bool) : Except BatchError (List (BatchResult A)) :=
  if timedOut then
    .error .aggregateTimeout
  else
    .ok (completionOrder.map fun u => execute_single u (outcome u)
      (durations u))

/-! ## Theorems about RetryManager -/

/-- Helper for C3: under permanent matching failure the loop runs all its
remaining iterations, invoking once per iteration, and ends by re-raising
the exception of the final attempt. -/
theorem executeFrom_allFail {E A : Type} (cfg : RetryConfig)
    (ops : ℕ → AttemptOutcome E A) (rand : ℕ → ℚ) (e : ℕ → E)
    (hops : ∀ i, ops i = .raises (e i) true) :
    ∀ remaining attempt,
      (executeFrom cfg ops rand attempt remaining).invocations =
        remaining + 1 ∧
      (executeFrom cfg ops rand attempt remaining).result =
        .raisedLast (e (attempt + remaining)) := by
  intro remaining
  induction remaining with
  | zero =>
    intro attempt
    simp [executeFrom, hops attempt]
  | succ r ih =>
    intro attempt
    have h := ih (attempt + 1)
    have harith : attempt + 1 + r = attempt + (r + 1) := by omega
    rw [harith] at h
    simp [executeFrom, hops attempt, h.1, h.2]

/-- C3: for every `RetryConfig` with `max_retries = n` and every operation
that raises a matching exception on every invocation, `RetryManager.execute`
invokes the operation exactly `n + 1` times and then raises the exception
observed on the last attempt (attempt index `n`). -/
theorem retry_permanent_failure_runs_all_attempts {E A : Type}
    (cfg : RetryConfig) (ops : ℕ → AttemptOutcome E A) (rand : ℕ → ℚ)
    (e : ℕ → E) (hops : ∀ i, ops i = .raises (e i) true) :
    (execute cfg ops rand).invocations = cfg.max_retries + 1 ∧
    (execute cfg ops rand).result = .raisedLast (e cfg.max_retries) := by
  have h := executeFrom_allFail cfg ops rand e hops cfg.max_retries 0
  simpa [execute] using h

/-- Witness for C3 at the default config (`max_retries = 3`) and the
operation raising the matching exception `i` on attempt `i`. -/
theorem retry_permanent_failure_runs_all_attempts_witness :
    ((execute {} (fun i => .raises i true) (fun _ => 0) :
        RetryTrace ℕ ℕ)).invocations = 3 + 1 ∧
    ((execute {} (fun i => .raises i true) (fun _ => 0) :
        RetryTrace ℕ ℕ)).result = .raisedLast 3 :=
  retry_permanent_failure_runs_all_attempts {} _ _ (fun i => i)
    (fun _ => rfl)

/-- C8: an exception not matching `config.exceptions` raised on the first
invocation propagates immediately: one invocation, no failure-statistic
increment, no retry-counter increment, and no backoff sleep. -/
theorem retry_nonmatching_propagates_immediately {E A : Type}
    (cfg : RetryConfig) (ops : ℕ → AttemptOutcome E A) (rand : ℕ → ℚ)
    (e : E) (h0 : ops 0 = .raises e false) :
    execute cfg ops rand = ⟨.propagated e, 1, 0, 0, []⟩ := by
  rcases hm : cfg.max_retries with _ | n <;>
    simp [execute, executeFrom, hm, h0]

/-- Witness for C8 at the default config and an operation whose first
invocation raises the non-matching exception `7`. -/
theorem retry_nonmatching_propagates_immediately_witness :
    (execute {} (fun _ => .raises 7 false) (fun _ => 0) :
        RetryTrace ℕ ℕ) = ⟨.propagated 7, 1, 0, 0, []⟩ :=
  retry_nonmatching_propagates_immediately {} _ _ 7 rfl

/-- C7: with jitter disabled `_calculate_delay` returns
`min(base_delay * backoff_factor^i, max_delay)` for the exponential
strategy, `min(base_delay, max_delay)` for fixed and
`min(base_delay * (i+1), max_delay)` for linear; with jitter enabled the
draw `r` of `random.uniform(0.1, 0.3)` adds `r` times the clamped delay,
an extra lying in `[10%, 30%)` of it whenever the clamped delay is
positive. -/
theorem calculate_delay_spec (cfg : RetryConfig) (i : ℕ) (r : ℚ) :
    (cfg.jitter = false →
      (cfg.strategy = .exponential →
        calculate_delay cfg i r =
          min (cfg.base_delay * cfg.backoff_factor ^ i) cfg.max_delay) ∧
      (cfg.strategy = .fixed →
        calculate_delay cfg i r = min cfg.base_delay cfg.max_delay) ∧
      (cfg.strategy = .linear →
        calculate_delay cfg i r =
          min (cfg.base_delay * (i + 1)) cfg.max_delay)) ∧
    (cfg.jitter = true →
      calculate_delay cfg i r =
        calculate_delay { cfg with jitter := false } i r +
          r * calculate_delay { cfg with jitter := false } i r ∧
      (1 / 10 ≤ r → r < 3 / 10 →
        0 < calculate_delay { cfg with jitter := false } i r →
        calculate_delay { cfg with jitter := false } i r / 10 ≤
            r * calculate_delay { cfg with jitter := false } i r ∧
          r * calculate_delay { cfg with jitter := false } i r <
            3 * calculate_delay { cfg with jitter := false } i r / 10)) := by
  constructor
  · intro hj
    refine ⟨fun hs => ?_, fun hs => ?_, fun hs => ?_⟩ <;>
      simp [calculate_delay, hs, hj]
  · intro hj
    constructor
    · simp [calculate_delay, hj]
    · intro hr1 hr2 hpos
      constructor
      · nlinarith [hpos]
      · nlinarith [hpos]

/-- Witness for C7: the exponential strategy without jitter at attempt 5,
and the jittered delay with draw `r = 1/5` decomposed as clamped delay
plus extra, the extra lying in the promised band. -/
theorem calculate_delay_spec_witness :
    calculate_delay ⟨3, 1, 60, 2, .exponential, false⟩ 5 (1 / 5) =
      min ((1 : ℚ) * 2 ^ 5) 60 ∧
    calculate_delay ⟨3, 1, 60, 2, .exponential, true⟩ 5 (1 / 5) =
      calculate_delay ⟨3, 1, 60, 2, .exponential, false⟩ 5 (1 / 5) +
        (1 / 5) * calculate_delay ⟨3, 1, 60, 2, .exponential, false⟩ 5
          (1 / 5) ∧
    calculate_delay ⟨3, 1, 60, 2, .exponential, false⟩ 5 (1 / 5) / 10 ≤
      (1 / 5) * calculate_delay ⟨3, 1, 60, 2, .exponential, false⟩ 5
        (1 / 5) := by
  have h1 := (calculate_delay_spec ⟨3, 1, 60, 2, .exponential, false⟩ 5
    (1 / 5)).1 rfl
  have h2 := (calculate_delay_spec ⟨3, 1, 60, 2, .exponential, true⟩ 5
    (1 / 5)).2 rfl
  refine ⟨h1.1 rfl, ?_, ?_⟩
  · exact h2.1
  · exact (h2.2 (by norm_num) (by norm_num) (by norm_num [calculate_delay])).1

/-! ## Theorems about CircuitBreaker -/

/-- One `call` preserves the threshold invariant: whenever the resulting
breaker is open or half-open, its failure counter has reached the
threshold. -/
theorem cbCall_preserves_threshold (cfg : CBConfig) (s : CBState) (now : ℚ)
    (ev : CBEvent)
    (ih : s.state = .open_ ∨ s.state = .halfOpen →
      cfg.failure_threshold ≤ s.failure_count) :
    (cbCall cfg s now ev).1.state = .open_ ∨
      (cbCall cfg s now ev).1.state = .halfOpen →
    cfg.failure_threshold ≤ (cbCall cfg s now ev).1.failure_count := by
  unfold cbCall cbExec cbOnSuccess cbOnFailure
  rcases s with ⟨st, fc, lft, sc⟩
  rcases ev <;> rcases st <;> simp_all <;> split_ifs <;> simp_all <;> omega

/-- Invariant of every reachable breaker state: whenever the breaker is
open or half-open, the failure counter has reached the threshold.  (It is
reset only on closing; entering half-open does not touch it.) -/
theorem cbReachable_threshold_le_failure_count (cfg : CBConfig) {s : CBState}
    (h : CBReachable cfg s) :
    s.state = .open_ ∨ s.state = .halfOpen →
    cfg.failure_threshold ≤ s.failure_count := by
  induction h with
  | init => simp [cbInit]
  | step now ev hr ih => exact cbCall_preserves_threshold cfg _ now ev ih

/-- Helper for C2: the full state of a fresh breaker after
`k ≤ threshold` consecutive matching failures, all stamped `now`
(`threshold ≥ 1`): the failure count is `k`, the breaker is closed while
`k < threshold` and open at `k = threshold`. -/
theorem cbFailTrace_spec (cfg : CBConfig) (now : ℚ)
    (h1 : 1 ≤ cfg.failure_threshold) :
    ∀ k, k ≤ cfg.failure_threshold →
      cbFailTrace cfg now k =
        ⟨if k < cfg.failure_threshold then .closed else .open_, k,
          if k = 0 then 0 else now, 0⟩ := by
  intro k
  induction k with
  | zero =>
    intro _
    have h0 : 0 < cfg.failure_threshold := h1
    simp [cbFailTrace, cbInit, h0]
  | succ n ih =>
    intro hk
    have hlt : n < cfg.failure_threshold := by omega
    have hn := ih (by omega)
    rw [if_pos hlt] at hn
    rw [cbFailTrace, hn]
    by_cases hc : cfg.failure_threshold ≤ n + 1
    · have hc2 : ¬ (n + 1 < cfg.failure_threshold) := by omega
      simp [cbCall, cbExec, cbOnFailure, hc, hc2]
    · have hc2 : n + 1 < cfg.failure_threshold := by omega
      simp [cbCall, cbExec, cbOnFailure, hc, hc2]

/-- C2: the three-state step relation of `CircuitBreaker.call`.  Starting
closed, after `failure_threshold` consecutive matching failures the breaker
is open (and still closed strictly before that); while open within
`recovery_timeout` of the last failure, a call is rejected with the
breaker-open error, the state untouched and the operation not invoked;
once `now - last_failure_time` exceeds `recovery_timeout` the call is
admitted from the half-open state with `success_count` reset to 0; two
consecutive successes in half-open close the breaker and reset
`failure_count`; and any matching failure in a reachable half-open state
immediately re-opens the breaker and stamps `last_failure_time`. -/
theorem circuit_breaker_step_relation (cfg : CBConfig) :
    (1 ≤ cfg.failure_threshold → ∀ now k, k < cfg.failure_threshold →
      (cbFailTrace cfg now k).state = .closed) ∧
    (1 ≤ cfg.failure_threshold → ∀ now,
      (cbFailTrace cfg now cfg.failure_threshold).state = .open_) ∧
    (∀ s now ev, s.state = .open_ →
      now - s.last_failure_time ≤ cfg.recovery_timeout →
      cbCall cfg s now ev = (s, .rejectedOpen)) ∧
    (∀ s now ev, s.state = .open_ →
      cfg.recovery_timeout < now - s.last_failure_time →
      cbCall cfg s now ev =
        cbExec cfg { s with state := .halfOpen, success_count := 0 } now
          ev) ∧
    (∀ s now1 now2, s.state = .halfOpen → s.success_count = 0 →
      (cbCall cfg s now1 .success).1.state = .halfOpen ∧
      (cbCall cfg s now1 .success).1.success_count = 1 ∧
      (cbCall cfg (cbCall cfg s now1 .success).1 now2 .success).1.state =
        .closed ∧
      (cbCall cfg (cbCall cfg s now1 .success).1 now2
        .success).1.failure_count = 0) ∧
    (∀ s now, CBReachable cfg s → s.state = .halfOpen →
      (cbCall cfg s now .matchingFailure).1.state = .open_ ∧
      (cbCall cfg s now .matchingFailure).1.last_failure_time = now) := by
  refine ⟨?_, ?_, ?_, ?_, ?_, ?_⟩
  · intro ht now k hk
    rw [cbFailTrace_spec cfg now ht k (by omega)]
    simp [hk]
  · intro ht now
    rw [cbFailTrace_spec cfg now ht cfg.failure_threshold (le_refl _)]
    simp
  · intro s now ev hs htime
    simp [cbCall, hs, not_lt.mpr htime]
  · intro s now ev hs htime
    simp [cbCall, hs, htime]
  · intro s now1 now2 hs hsc
    have hns : s.state ≠ .open_ := by simp [hs]
    have hs1 : (cbCall cfg s now1 .success).1 =
        { s with success_count := 1 } := by
      simp [cbCall, cbExec, cbOnSuccess, hns, hs, hsc]
    have hns1 : ({ s with success_count := 1 } : CBState).state ≠ .open_ :=
      hns
    have hs2 : (cbCall cfg { s with success_count := 1 } now2 .success).1 =
        { s with state := .closed, failure_count := 0,
                 success_count := 2 } := by
      simp [cbCall, cbExec, cbOnSuccess, hns1, hs]
    refine ⟨?_, ?_, ?_, ?_⟩
    · rw [hs1]; exact hs
    · rw [hs1]
    · rw [hs1, hs2]
    · rw [hs1, hs2]
  · intro s now hr hs
    have hfc := cbReachable_threshold_le_failure_count cfg hr (Or.inr hs)
    have hns : s.state ≠ .open_ := by simp [hs]
    have hge : cfg.failure_threshold ≤ s.failure_count + 1 := by omega
    constructor <;> simp [cbCall, cbExec, cbOnFailure, hns, hge]

/-- Witness for C2 at `failure_threshold = 1`, `recovery_timeout = 60`:
one matching failure at time 0 opens the breaker; a call at time 30 is
rejected with the state untouched; a call at time 61 is admitted and
leaves the breaker half-open; a matching failure in that reachable
half-open state at time 70 re-opens the breaker. -/
theorem circuit_breaker_step_relation_witness :
    (cbFailTrace ⟨1, 60⟩ 0 1).state = .open_ ∧
    cbCall ⟨1, 60⟩ (cbFailTrace ⟨1, 60⟩ 0 1) 30 .success =
      (cbFailTrace ⟨1, 60⟩ 0 1, .rejectedOpen) ∧
    (cbCall ⟨1, 60⟩ (cbFailTrace ⟨1, 60⟩ 0 1) 61 .success).1.state =
      .halfOpen ∧
    (cbCall ⟨1, 60⟩
      (cbCall ⟨1, 60⟩ (cbFailTrace ⟨1, 60⟩ 0 1) 61 .success).1 70
      .matchingFailure).1.state = .open_ := by
  have hmain := circuit_breaker_step_relation ⟨1, 60⟩
  have hopenState : cbFailTrace ⟨1, 60⟩ 0 1 = ⟨.open_, 1, 0, 0⟩ := rfl
  have htrace : (cbFailTrace ⟨1, 60⟩ 0 1).state = .open_ :=
    hmain.2.1 (by decide) 0
  have hreach1 : CBReachable ⟨1, 60⟩ (cbFailTrace ⟨1, 60⟩ 0 1) :=
    CBReachable.step 0 .matchingFailure CBReachable.init
  have hreach2 : CBReachable ⟨1, 60⟩
      (cbCall ⟨1, 60⟩ (cbFailTrace ⟨1, 60⟩ 0 1) 61 .success).1 :=
    CBReachable.step 61 .success hreach1
  have hhalf : (cbCall ⟨1, 60⟩ (cbFailTrace ⟨1, 60⟩ 0 1) 61
      .success).1.state = .halfOpen := by
    rw [hopenState]
    norm_num [cbCall, cbExec, cbOnSuccess]
  refine ⟨htrace, ?_, hhalf, ?_⟩
  · refine hmain.2.2.1 _ 30 .success htrace ?_
    rw [hopenState]
    show (30 : ℚ) - 0 ≤ 60
    norm_num
  · exact (hmain.2.2.2.2.2 _ 70 hreach2 hhalf).1


/-! ## Theorems about ConnectionPool -/

/-- The reuse scan never changes how many records the pool holds. -/
theorem reuseFirstActive_length (now : ℚ) :
    ∀ l cid l2, reuseFirstActive now l = some (cid, l2) →
      l2.length = l.length := by
  intro l
  induction l with
  | nil => intro cid l2 h; simp [reuseFirstActive] at h
  | cons c cs ih =>
    intro cid l2 h
    unfold reuseFirstActive at h
    by_cases hc : c.is_active
    · simp [hc] at h
      rw [← h.2]
      simp
    · simp [hc] at h
      cases h2 : reuseFirstActive now cs with
      | none => rw [h2] at h; simp at h
      | some pr =>
        obtain ⟨cid2, cs2⟩ := pr
        rw [h2] at h
        simp at h
        rw [← h.2]
        simp [ih cid2 cs2 h2]

/-- The reuse scan comes back empty exactly when no record is active. -/
theorem reuseFirstActive_eq_none (now : ℚ) :
    ∀ l, reuseFirstActive now l = none ↔ ∀ c ∈ l, c.is_active = false := by
  intro l
  induction l with
  | nil => simp [reuseFirstActive]
  | cons c cs ih =>
    constructor
    · intro h
      unfold reuseFirstActive at h
      by_cases hc : c.is_active
      · simp [hc] at h
      · simp only [hc, if_false] at h
        intro x hx
        rcases List.mem_cons.mp hx with h3 | h3
        · rw [h3]; simpa using hc
        · cases h2 : reuseFirstActive now cs with
          | none => exact ih.mp h2 x h3
          | some pr =>
            obtain ⟨cid2, cs2⟩ := pr
            rw [h2] at h
            simp at h
    · intro hall
      unfold reuseFirstActive
      have hcf : c.is_active = false := hall c (List.mem_cons_self _ _)
      rw [ih.mpr fun x hx => hall x (List.mem_cons_of_mem _ hx)]
      simp [hcf]

/-- The reuse scan only refreshes `last_used`; if every record was active
before, every record is active after. -/
theorem reuseFirstActive_active (now : ℚ) :
    ∀ l cid l2, reuseFirstActive now l = some (cid, l2) →
      (∀ c ∈ l, c.is_active = true) → ∀ c ∈ l2, c.is_active = true := by
  intro l
  induction l with
  | nil => intro cid l2 h; simp [reuseFirstActive] at h
  | cons c cs ih =>
    intro cid l2 h hall
    unfold reuseFirstActive at h
    by_cases hc : c.is_active
    · simp [hc] at h
      rw [← h.2]
      intro c2 hmem
      rcases List.mem_cons.mp hmem with h3 | h3
      · simp [h3, hc]
      · exact hall c2 (List.mem_cons_of_mem _ h3)
    · simp [hc] at h
      cases h2 : reuseFirstActive now cs with
      | none => rw [h2] at h; simp at h
      | some pr =>
        obtain ⟨cid2, cs2⟩ := pr
        rw [h2] at h
        simp at h
        rw [← h.2]
        intro c2 hmem
        rcases List.mem_cons.mp hmem with h3 | h3
        · rw [h3]; exact hall c (List.mem_cons_self _ _)
        · exact ih cid2 cs2 h2
            (fun x hx => hall x (List.mem_cons_of_mem _ hx)) c2 h3

/-- C4: the pool never exceeds `max_connections` records — the bound is
preserved by `_acquire_connection`, `_release_connection` and the cleanup
sweep — and an acquire issued at capacity with no reusable (active) record
raises the pool-exhausted error rather than creating a record. -/
theorem connection_pool_capacity (pool : ConnectionPool) (now : ℚ)
    (newId : String) :
    (∀ cid p2, pool.connections.length ≤ pool.max_connections →
      acquire_connection pool now newId = .ok (cid, p2) →
      p2.connections.length ≤ p2.max_connections) ∧
    ((release_connection pool now newId).connections.length =
        pool.connections.length ∧
      (release_connection pool now newId).max_connections =
        pool.max_connections) ∧
    ((cleanup_expired_connections pool now).connections.length ≤
        pool.connections.length ∧
      (cleanup_expired_connections pool now).max_connections =
        pool.max_connections) ∧
    (pool.connections.length = pool.max_connections →
      (∀ c ∈ pool.connections, c.is_active = false) →
      acquire_connection pool now newId = .error .exhausted) := by
  refine ⟨?_, ?_, ?_, ?_⟩
  · intro cid p2 hlen hok
    unfold acquire_connection at hok
    cases h : reuseFirstActive now pool.connections with
    | some pr =>
      obtain ⟨cid2, conns2⟩ := pr
      rw [h] at hok
      simp at hok
      rw [← hok.2]
      simpa [reuseFirstActive_length now pool.connections cid2 conns2 h]
        using hlen
    | none =>
      rw [h] at hok
      by_cases hfull : pool.connections.length < pool.max_connections
      · rw [if_pos hfull] at hok
        simp at hok
        rw [← hok.2]
        simpa using hfull
      · rw [if_neg hfull] at hok
        simp at hok
  · exact ⟨by simp [release_connection], by simp [release_connection]⟩
  · exact ⟨by simpa [cleanup_expired_connections]
        using List.length_filter_le _ pool.connections,
      by simp [cleanup_expired_connections]⟩
  · intro hlen hinactive
    unfold acquire_connection
    rw [(reuseFirstActive_eq_none now pool.connections).mpr hinactive]
    simp [hlen]

/-- Witness for C4 at a one-slot pool holding one active record: the
record is reused, so the bound `1 ≤ 1` persists; and at a zero-slot empty
pool the exhausted error fires. -/
theorem connection_pool_capacity_witness :
    (acquire_connection
        { max_connections := 1,
          connections := [⟨"c1", 0, 0, true⟩] } 5 "c2" =
      .ok ("c1", { max_connections := 1,
                   connections := [⟨"c1", 0, 5, true⟩] })) ∧
    ({ max_connections := 1,
        connections := [⟨"c1", 0, 5, true⟩] } :
        ConnectionPool).connections.length ≤ 1 ∧
    acquire_connection ({ max_connections := 0 } : ConnectionPool) 0 "c1" =
      .error .exhausted := by
  have h := connection_pool_capacity
    { max_connections := 1, connections := [⟨"c1", 0, 0, true⟩] } 5 "c2"
  have hok : acquire_connection
      { max_connections := 1, connections := [⟨"c1", 0, 0, true⟩] } 5
        "c2" =
      .ok ("c1", { max_connections := 1,
                   connections := [⟨"c1", 0, 5, true⟩] }) := by
    simp [acquire_connection, reuseFirstActive]
  refine ⟨hok, ?_, ?_⟩
  · exact h.1 "c1" _ (by simp) hok
  · exact (connection_pool_capacity ({ max_connections := 0 } :
      ConnectionPool) 0 "c1").2.2.2 (by simp) (by simp)

/-- Invariant of pools driven from empty by acquire and release alone:
the configured bound is untouched, at most one record exists, and every
record is active. -/
theorem acqRelReachable_invariant {maxConn : ℕ} {pool : ConnectionPool}
    (h : AcqRelReachable maxConn pool) :
    pool.max_connections = maxConn ∧ pool.connections.length ≤ 1 ∧
      ∀ c ∈ pool.connections, c.is_active = true := by
  induction h with
  | init cfg hconns hmax => simp [hconns, hmax]
  | acquire now newId cid p2 hr hok ih =>
    obtain ⟨hmax, hlen, hact⟩ := ih
    unfold acquire_connection at hok
    rename_i p
    cases h : reuseFirstActive now p.connections with
    | some pr =>
      obtain ⟨cid2, conns2⟩ := pr
      rw [h] at hok
      simp at hok
      refine ⟨?_, ?_, ?_⟩
      · rw [← hok.2]; exact hmax
      · rw [← hok.2]
        simpa [reuseFirstActive_length now p.connections cid2 conns2 h]
          using hlen
      · rw [← hok.2]
        exact reuseFirstActive_active now p.connections cid2 conns2 h hact
    | none =>
      have hempty : p.connections = [] := by
        have hall := (reuseFirstActive_eq_none now p.connections).mp h
        cases hconns : p.connections with
        | nil => rfl
        | cons c cs =>
          have h1 := hact c (by rw [hconns]; exact List.mem_cons_self _ _)
          have h2 := hall c (by rw [hconns]; exact List.mem_cons_self _ _)
          rw [h1] at h2
          exact absurd h2 (by simp)
      rw [h] at hok
      by_cases hfull : p.connections.length < p.max_connections
      · rw [if_pos hfull] at hok
        simp at hok
        rw [← hok.2]
        refine ⟨hmax, ?_, ?_⟩ <;> simp [hempty]
      · rw [if_neg hfull] at hok
        simp at hok
  | release now connId hr ih =>
    obtain ⟨hmax, hlen, hact⟩ := ih
    refine ⟨hmax, by simpa [release_connection] using hlen, ?_⟩
    intro c hc
    simp [release_connection] at hc
    obtain ⟨c0, hc0, hc0eq⟩ := hc
    have := hact c0 hc0
    by_cases hid : c0.id = connId <;> rw [← hc0eq] <;> simp [hid, this]

/-- C10: no pool operation ever clears a record's `is_active` flag, so
records are permanently reusable: once the pool is non-empty (its records
necessarily all active), `_acquire_connection` hands back the first
existing record's id, merely refreshing its `last_used`, instead of
creating a record; a pool driven from empty by acquire/release alone holds
at most one record; and for `max_connections ≥ 1` the pool-exhausted
branch can never fire on an all-active pool. -/
theorem connection_pool_permanent_reuse :
    (∀ (pool : ConnectionPool) (now : ℚ) (newId cid : String) p2,
      (∀ c ∈ pool.connections, c.is_active = true) →
      acquire_connection pool now newId = .ok (cid, p2) →
      ∀ c ∈ p2.connections, c.is_active = true) ∧
    (∀ (pool : ConnectionPool) (now : ℚ) (connId : String),
      (∀ c ∈ pool.connections, c.is_active = true) →
      ∀ c ∈ (release_connection pool now connId).connections,
        c.is_active = true) ∧
    (∀ (pool : ConnectionPool) (now : ℚ),
      (∀ c ∈ pool.connections, c.is_active = true) →
      ∀ c ∈ (cleanup_expired_connections pool now).connections,
        c.is_active = true) ∧
    (∀ (pool : ConnectionPool) (now : ℚ) (newId : String) c cs,
      pool.connections = c :: cs → c.is_active = true →
      acquire_connection pool now newId =
        .ok (c.id, { pool with
          connections := { c with last_used := now } :: cs })) ∧
    (∀ (maxConn : ℕ) (pool : ConnectionPool),
      AcqRelReachable maxConn pool → pool.connections.length ≤ 1) ∧
    (∀ (pool : ConnectionPool) (now : ℚ) (newId : String),
      1 ≤ pool.max_connections →
      (∀ c ∈ pool.connections, c.is_active = true) →
      acquire_connection pool now newId ≠ .error .exhausted) := by
  refine ⟨?_, ?_, ?_, ?_, ?_, ?_⟩
  · intro pool now newId cid p2 hact hok
    unfold acquire_connection at hok
    cases h : reuseFirstActive now pool.connections with
    | some pr =>
      obtain ⟨cid2, conns2⟩ := pr
      rw [h] at hok
      simp at hok
      rw [← hok.2]
      exact reuseFirstActive_active now pool.connections cid2 conns2 h hact
    | none =>
      rw [h] at hok
      by_cases hfull : pool.connections.length < pool.max_connections
      · rw [if_pos hfull] at hok
        simp at hok
        rw [← hok.2]
        intro c hc
        rcases List.mem_append.mp hc with h3 | h3
        · exact hact c h3
        · simp at h3; rw [h3]
      · rw [if_neg hfull] at hok
        simp at hok
  · intro pool now connId hact c hc
    simp [release_connection] at hc
    obtain ⟨c0, hc0, hc0eq⟩ := hc
    have := hact c0 hc0
    by_cases hid : c0.id = connId <;> rw [← hc0eq] <;> simp [hid, this]
  · intro pool now hact c hc
    simp [cleanup_expired_connections] at hc
    exact hact c hc.1
  · intro pool now newId c cs hconns hc
    unfold acquire_connection
    rw [hconns]
    unfold reuseFirstActive
    simp [hc, hconns]
  · intro maxConn pool hr
    exact (acqRelReachable_invariant hr).2.1
  · intro pool now newId hmax hact
    unfold acquire_connection
    cases h : reuseFirstActive now pool.connections with
    | some pr => simp
    | none =>
      have hempty : pool.connections = [] := by
        have hall := (reuseFirstActive_eq_none now pool.connections).mp h
        cases hconns : pool.connections with
        | nil => rfl
        | cons c cs =>
          have h1 := hact c (by rw [hconns]; exact List.mem_cons_self _ _)
          have h2 := hall c (by rw [hconns]; exact List.mem_cons_self _ _)
          rw [h1] at h2
          exact absurd h2 (by simp)
      rw [if_pos (by simp [hempty]; omega)]
      simp

/-- Witness for C10: a one-record pool keeps its record active and reuses
it; the empty-then-acquire-then-release trace holds one record; a
one-slot all-active pool never reports exhaustion. -/
theorem connection_pool_permanent_reuse_witness :
    acquire_connection
        { max_connections := 10,
          connections := [⟨"c1", 0, 0, true⟩] } 7 "c9" =
      .ok ("c1", { max_connections := 10,
                   connections := [⟨"c1", 0, 7, true⟩] }) ∧
    (∀ c ∈ (release_connection
        { max_connections := 10,
          connections := [⟨"c1", 0, 7, true⟩] } 8 "c1").connections,
      c.is_active = true) ∧
    acquire_connection
        ({ max_connections := 1 } : ConnectionPool) 0 "c1" ≠
      .error .exhausted := by
  have h := connection_pool_permanent_reuse
  refine ⟨?_, ?_, ?_⟩
  · have := h.2.2.2.1
      { max_connections := 10, connections := [⟨"c1", 0, 0, true⟩] } 7
      "c9" ⟨"c1", 0, 0, true⟩ [] rfl rfl
    simpa using this
  · exact h.2.1 _ 8 "c1" (by simp)
  · exact h.2.2.2.2.2 _ 0 "c1" (by simp) (by simp)

/-! ## Theorems about HealthChecker -/

/-- Trimming leaves a short history alone. -/
theorem trimHistory_of_le (l : List (ℚ × String × HealthStatus))
    (h : l.length ≤ 1000) : trimHistory l = l := by
  simp [trimHistory, Nat.not_lt.mpr h]

/-- Trimming a long history keeps the most recent 500 entries. -/
theorem trimHistory_of_gt (l : List (ℚ × String × HealthStatus))
    (h : 1000 < l.length) : trimHistory l = l.drop (l.length - 500) := by
  simp [trimHistory, h]

/-- A trimmed history never holds more than 1000 entries. -/
theorem trimHistory_length_le (l : List (ℚ × String × HealthStatus)) :
    (trimHistory l).length ≤ 1000 := by
  unfold trimHistory
  split_ifs with h
  · simp
    omega
  · omega

/-- C5: `check_health` returns Unknown with no registered checks;
otherwise, with `p` the fraction of probes passing in this run, it returns
Healthy when `p ≥ 9/10`, Degraded when `1/2 ≤ p < 9/10` and Unhealthy when
`p < 1/2`; in particular all probes passing yields Healthy and exactly
half failing yields Degraded. -/
theorem check_health_status_thresholds (hc : HealthChecker) (now : ℚ)
    (probe : String → Bool) :
    (hc.checks = [] → (check_health hc now probe).1 = .unknown) ∧
    (hc.checks ≠ [] →
      ((9 : ℚ) / 10 ≤
          (hc.checks.countP probe : ℚ) / (hc.checks.length : ℚ) →
        (check_health hc now probe).1 = .healthy) ∧
      ((1 : ℚ) / 2 ≤
          (hc.checks.countP probe : ℚ) / (hc.checks.length : ℚ) →
        (hc.checks.countP probe : ℚ) / (hc.checks.length : ℚ) <
          9 / 10 →
        (check_health hc now probe).1 = .degraded) ∧
      ((hc.checks.countP probe : ℚ) / (hc.checks.length : ℚ) < 1 / 2 →
        (check_health hc now probe).1 = .unhealthy)) ∧
    (hc.checks ≠ [] → (∀ n ∈ hc.checks, probe n = true) →
      (check_health hc now probe).1 = .healthy) ∧
    (hc.checks ≠ [] → 2 * hc.checks.countP probe = hc.checks.length →
      (check_health hc now probe).1 = .degraded) := by
  have hthresh : hc.checks ≠ [] →
      (((9 : ℚ) / 10 ≤
          (hc.checks.countP probe : ℚ) / (hc.checks.length : ℚ) →
        (check_health hc now probe).1 = .healthy) ∧
      ((1 : ℚ) / 2 ≤
          (hc.checks.countP probe : ℚ) / (hc.checks.length : ℚ) →
        (hc.checks.countP probe : ℚ) / (hc.checks.length : ℚ) <
          9 / 10 →
        (check_health hc now probe).1 = .degraded) ∧
      ((hc.checks.countP probe : ℚ) / (hc.checks.length : ℚ) < 1 / 2 →
        (check_health hc now probe).1 = .unhealthy)) := by
    intro hne
    refine ⟨fun hge => ?_, fun hge hlt => ?_, fun hlt => ?_⟩
    · simp [check_health, hne, hge]
    · simp [check_health, hne, hge, not_le.mpr hlt]
      linarith
    · have h9 : ¬ (9 : ℚ) / 10 ≤
          (hc.checks.countP probe : ℚ) / (hc.checks.length : ℚ) := by
        intro hcon
        nlinarith [hcon, hlt]
      simp [check_health, hne, h9, not_le.mpr hlt]
      linarith
  refine ⟨fun h => by simp [check_health, h], hthresh, ?_, ?_⟩
  · intro hne hall
    have hlen : 0 < hc.checks.length := List.length_pos.mpr hne
    have hcount : hc.checks.countP probe = hc.checks.length :=
      List.countP_eq_length.mpr (by simpa using hall)
    have hcast : ((hc.checks.length : ℚ)) ≠ 0 := by
      exact_mod_cast Nat.pos_iff_ne_zero.mp hlen
    refine (hthresh hne).1 ?_
    rw [hcount, div_self hcast]
    norm_num
  · intro hne hhalf
    have hlen : 0 < hc.checks.length := List.length_pos.mpr hne
    have tpos : (0 : ℚ) < (hc.checks.length : ℚ) := by exact_mod_cast hlen
    have ht : ((hc.checks.length : ℚ)) =
        2 * (hc.checks.countP probe : ℚ) := by exact_mod_cast hhalf.symm
    refine (hthresh hne).2.1 ?_ ?_
    · rw [le_div_iff₀ tpos]
      linarith
    · rw [div_lt_iff₀ tpos]
      linarith

/-- Witness for C5: two checks of which exactly one passes give Degraded;
two checks both passing give Healthy; the empty checker gives Unknown. -/
theorem check_health_status_thresholds_witness :
    (check_health { checks := ["a", "b"] } 0 (fun n => n == "a")).1 =
      .degraded ∧
    (check_health { checks := ["a", "b"] } 0 (fun _ => true)).1 =
      .healthy ∧
    (check_health {} 0 (fun _ => true)).1 = .unknown := by
  refine ⟨?_, ?_, ?_⟩
  · exact (check_health_status_thresholds { checks := ["a", "b"] } 0
      (fun n => n == "a")).2.2.2 (by simp) (by decide)
  · exact (check_health_status_thresholds { checks := ["a", "b"] } 0
      (fun _ => true)).2.2.1 (by simp) (by simp)
  · exact (check_health_status_thresholds {} 0 (fun _ => true)).1 rfl

/-- C9 counterexample: a `check_health` run with no registered checks does
not append to the status history (the method returns from the empty-checks
branch before the history append), contradicting the claim that every call
appends one entry. -/
theorem check_health_no_append_counterexample :
    ¬ ((check_health {} 0 (fun _ => true)).2.status_history.length =
      ({} : HealthChecker).status_history.length + 1) := by
  simp [check_health]

/-- C9 (amended): a `check_health` run with at least one registered check
appends one `(timestamp, "overall", status)` entry and then trims to the
most recent 500 entries whenever the length exceeds 1000, so after any
such run the history holds at most 1000 entries; a run with no checks
registered leaves the history unchanged. -/
theorem check_health_history_bound (hc : HealthChecker) (now : ℚ)
    (probe : String → Bool) :
    (hc.checks = [] →
      (check_health hc now probe).2.status_history = hc.status_history) ∧
    (hc.checks ≠ [] →
      (check_health hc now probe).2.status_history =
        trimHistory (hc.status_history ++
          [(now, "overall", (check_health hc now probe).1)])) ∧
    (hc.checks ≠ [] → hc.status_history.length ≤ 999 →
      (check_health hc now probe).2.status_history =
        hc.status_history ++
          [(now, "overall", (check_health hc now probe).1)]) ∧
    (hc.checks ≠ [] → 1000 ≤ hc.status_history.length →
      (check_health hc now probe).2.status_history.length = 500) ∧
    (hc.checks ≠ [] →
      (check_health hc now probe).2.status_history.length ≤ 1000) := by
  have happ : ∀ hne : hc.checks ≠ [],
      (check_health hc now probe).2.status_history =
        trimHistory (hc.status_history ++
          [(now, "overall", (check_health hc now probe).1)]) := by
    intro hne
    simp only [check_health, if_neg hne]
  refine ⟨fun h => by simp [check_health, h], happ, ?_, ?_, ?_⟩
  · intro hne hlen
    rw [happ hne]
    exact trimHistory_of_le _ (by simp; omega)
  · intro hne hlen
    rw [happ hne, trimHistory_of_gt _ (by simp; omega)]
    simp
    omega
  · intro hne
    rw [happ hne]
    exact trimHistory_length_le _

/-- Witness for C9: a checker with one passing check and an empty history
ends the run with exactly the single appended overall entry. -/
theorem check_health_history_bound_witness :
    (check_health { checks := ["a"] } 3 (fun _ => true)).2.status_history =
      [(3, "overall",
        (check_health { checks := ["a"] } 3 (fun _ => true)).1)] ∧
    (check_health { checks := ["a"] } 3
      (fun _ => true)).2.status_history.length ≤ 1000 := by
  have h := check_health_history_bound { checks := ["a"] } 3
    (fun _ => true)
  exact ⟨by simpa using h.2.2.1 (by simp) (by simp),
    h.2.2.2.2 (by simp)⟩

/-! ## Theorems about BatchOperator -/

/-- Each worker's result names the key it was spawned for. -/
theorem execute_single_udid {A : Type} (u : String)
    (o : Except String A) (d : ℚ) : (execute_single u o d).udid = u := by
  cases o <;> rfl

/-- C1 counterexample: when the aggregate timeout elapses before all
workers finish, `execute_batch` does not return a list at all — the
`concurrent.futures.TimeoutError` raised by `as_completed` escapes the
call — so no timeout-failure results are produced for pending keys. -/
theorem execute_batch_timeout_raises_counterexample :
    execute_batch (fun _ => (Except.ok 0 : Except String ℕ)) (fun _ => 0)
      [] true = .error .aggregateTimeout := rfl

/-- C1 (amended): when every worker completes before the aggregate
timeout, `execute_batch` returns normally with exactly one result per
input key (the collected list is a permutation-indexed image of the keys:
its length matches and each key occurs in the results exactly as often as
in the input); when the aggregate timeout elapses with futures still
pending, the `TimeoutError` from `as_completed` propagates instead of a
padded result list being returned. -/
theorem execute_batch_one_result_per_key {A : Type}
    (outcome : String → Except String A) (durations : String → ℚ)
    (udids completionOrder : List String)
    (hperm : completionOrder.Perm udids) :
    (∃ rs, execute_batch outcome durations completionOrder false =
        .ok rs ∧
      rs.length = udids.length ∧
      ∀ u, rs.countP (fun r => r.udid = u) =
        udids.countP (fun v => v = u)) ∧
    ∀ rs, execute_batch outcome durations completionOrder true ≠
      .ok rs := by
  constructor
  · refine ⟨_, rfl, ?_, ?_⟩
    · simpa [execute_batch] using hperm.length_eq
    · intro u
      show (completionOrder.map fun v =>
        execute_single v (outcome v) (durations v)).countP _ =
        udids.countP _
      rw [List.countP_map]
      have hfun : ((fun r : BatchResult A => decide (r.udid = u)) ∘
          fun v => execute_single v (outcome v) (durations v)) =
          fun v => decide (v = u) := by
        funext v
        simp [Function.comp, execute_single_udid]
      rw [hfun]
      exact hperm.countP_eq _
  · intro rs
    simp [execute_batch]

/-- Witness for C1 (amended): keys `["a", "b"]` completing in the order
`["b", "a"]`, with `"a"` failing, still give two results, one per key. -/
theorem execute_batch_one_result_per_key_witness :
    (∃ rs, execute_batch
        (fun u => if u = "a" then .error "boom"
          else (Except.ok 1 : Except String ℕ))
        (fun _ => 0) ["b", "a"] false = .ok rs ∧
      rs.length = (["a", "b"] : List String).length ∧
      ∀ u, rs.countP (fun r => r.udid = u) =
        (["a", "b"] : List String).countP (fun v => v = u)) ∧
    ∀ rs, execute_batch
        (fun u => if u = "a" then .error "boom"
          else (Except.ok 1 : Except String ℕ))
        (fun _ => 0) ["b", "a"] true ≠ .ok rs :=
  execute_batch_one_result_per_key _ _ ["a", "b"] ["b", "a"]
    (List.Perm.swap "a" "b" [])

/-- C6: a worker converts an exception from the caller-supplied operation
into a failed result carrying the exception's string and no value; a
success carries the returned value and no error; and in a batch that
completes in time every key's result obeys this mutual exclusion — one
key's failure neither aborts the batch nor touches the other keys'
results, each of which is computed from its own key's outcome alone. -/
theorem execute_single_error_isolation {A : Type} :
    (∀ (udid e : String) (d : ℚ),
      execute_single udid (.error e) d =
        (⟨udid, false, none, some e, d⟩ : BatchResult A)) ∧
    (∀ (udid : String) (a : A) (d : ℚ),
      execute_single udid (.ok a) d = ⟨udid, true, some a, none, d⟩) ∧
    (∀ (outcome : String → Except String A) (durations : String → ℚ)
      (order : List String),
      execute_batch outcome durations order false =
        .ok (order.map fun u =>
          execute_single u (outcome u) (durations u))) ∧
    (∀ (outcome : String → Except String A) (durations : String → ℚ)
      (order : List String) rs,
      execute_batch outcome durations order false = .ok rs →
      ∀ r ∈ rs,
        (r.success = true → r.error = none ∧ r.result ≠ none) ∧
        (r.success = false → r.result = none ∧ r.error ≠ none)) := by
  refine ⟨fun udid e d => rfl, fun udid a d => rfl, fun _ _ _ => rfl, ?_⟩
  intro outcome durations order rs hok r hr
  have hrs : rs = order.map fun u =>
      execute_single u (outcome u) (durations u) := by
    simpa [execute_batch] using hok.symm
  rw [hrs] at hr
  obtain ⟨v, hv, hveq⟩ := List.mem_map.mp hr
  rw [← hveq]
  cases hov : outcome v <;> simp [execute_single]

/-- Witness for C6: a two-key batch where `"a"` raises and `"b"` succeeds
returns a failed result for `"a"` with its error populated, and the
mutual-exclusion clauses hold for the successful result of `"b"`. -/
theorem execute_single_error_isolation_witness :
    execute_single "a" (.error "boom") 2 =
      (⟨"a", false, none, some "boom", 2⟩ : BatchResult ℕ) ∧
    ((execute_single "b" (Except.ok 5) 1 : BatchResult ℕ).success =
        true →
      (execute_single "b" (Except.ok 5) 1 : BatchResult ℕ).error =
          none ∧
        (execute_single "b" (Except.ok 5) 1 : BatchResult ℕ).result ≠
          none) := by
  have h := @execute_single_error_isolation ℕ
  refine ⟨h.1 "a" "boom" 2, ?_⟩
  exact (h.2.2.2 (fun _ => Except.ok 5) (fun _ => 1) ["b"] _ rfl
    (execute_single "b" (Except.ok 5) 1) (by simp)).1

end PyIDevice
